import Mathlib

/-!
Verification of the `concat-md` markdown concatenator (`src/index.ts`).

The development shallowly embeds the concatenation core:
`gitHubLink`, `MarkDownConcatenator.addTitle`, `getTitle`,
`decreaseTitleLevelsBy`, `modifyLinks`, `concatFiles`, plus the external
collaborators the core calls (`lodash.startcase`, `transform-markdown-links`,
Node's posix `path` functions), modelled where noted.  Strings are Lean
`String`s; the JavaScript `Map`/`Set` state becomes association lists with
JS `Map.set` semantics (replace-in-place or append).
-/

namespace ConcatMd

/-! ## Character classes used by the JavaScript regular expressions -/

/-- Line terminators recognized by a JavaScript multiline `^` anchor
(LF, CR, LS, PS), as used by `body.replace(/(^#+)/gm, ...)`. -/
def isLineTerm (c : Char) : Bool :=
  c == '\n' || c == '\r' || c == '\u2028' || c == '\u2029'

/-- The JavaScript whitespace class `\s` (WhiteSpace plus LineTerminator),
as matched by `String.prototype.trim` and `/\s/g` in `gitHubLink`. -/
def jsSpaceChars : List Char :=
  [' ', '\t', '\n', '\x0B', '\x0C', '\r', '\u00A0', '\u1680',
   '\u2000', '\u2001', '\u2002', '\u2003', '\u2004', '\u2005', '\u2006',
   '\u2007', '\u2008', '\u2009', '\u200A', '\u2028', '\u2029', '\u202F',
   '\u205F', '\u3000', '\uFEFF']

/-- `\s` as a Boolean predicate. -/
def jsSpace (c : Char) : Bool := jsSpaceChars.any (fun x => c == x)

/-- The JavaScript word class `\w`, i.e. `[A-Za-z0-9_]`
(`Char.isAlphanum` is exactly ASCII alphanumeric). -/
def jsWord (c : Char) : Bool := c.isAlphanum || c == '_'

/-- The character class `[\w\- ]` kept by `replace(/[^\w\- ]+/g, "")`. -/
def keepChar (c : Char) : Bool := jsWord c || c == '-' || c == ' '

/-- `String.prototype.trim`: strip leading and trailing JS whitespace. -/
def trimChars (l : List Char) : List Char :=
  ((l.dropWhile jsSpace).reverse.dropWhile jsSpace).reverse

/-! ## `gitHubLink` (src/index.ts lines 18-27)

```ts
export function gitHubLink(val: string): string {
  const value = val || "";
  return value
    .trim()
    .toLowerCase()
    .replace(/[^\w\- ]+/g, "")
    .replace(/\s/g, "-")
    .replace(/[-]+$/, "");   // written `[-]+$` here; the source spells the class bare
}
```
`toLowerCase` is modelled by `Char.toLower` (ASCII case mapping); the two
agree on every character that can survive the `[^\w\- ]+` filter. -/

/-- The `gitHubLink` slug pipeline on character lists. -/
def gitHubLinkList (l : List Char) : List Char :=
  let t := trimChars l
  let low := t.map Char.toLower
  let filt := low.filter keepChar
  let dash := filt.map (fun c => if jsSpace c then '-' else c)
  (dash.reverse.dropWhile (fun c => c == '-')).reverse

/-- `gitHubLink` on strings. -/
def gitHubLink (s : String) : String := ⟨gitHubLinkList s.data⟩

/-- Characters `gitHubLink` can output: a hyphen, or a kept non-space
character that is not an ASCII capital. -/
def slugChar (c : Char) : Prop :=
  c = '-' ∨ (keepChar c = true ∧ jsSpace c = false ∧ ¬(c.toNat ≥ 65 ∧ c.toNat ≤ 90))

/-! ## External collaborators (modelled) -/

/-- Capitalize the first character of a word (lodash `upperFirst`). -/
def upperFirst : List Char → List Char
  | [] => []
  | c :: cs => c.toUpper :: cs

/-- Split into maximal runs of ASCII alphanumeric characters.
`acc` holds the current run, reversed. -/
def wordRuns (acc : List Char) : List Char → List (List Char)
  | [] => if acc.isEmpty then [] else [acc.reverse]
  | c :: cs =>
    if c.isAlphanum then wordRuns (c :: acc) cs
    else if acc.isEmpty then wordRuns [] cs
    else acc.reverse :: wordRuns [] cs

/-- Join a list of strings with a separator
(`Array.prototype.join`, `String.intercalate`). -/
def joinSep (sep : String) : List String → String
  | [] => ""
  | [x] => x
  | x :: xs => x ++ sep ++ joinSep sep xs

/-- Modelled from the spec: the `lodash.startcase` dependency (the repository
imports `startCase` from npm; its source is not part of this repository).
Derives "a human-readable title by title-casing the path component": splits
the input into alphanumeric runs and capitalizes the first letter of each,
joined with spaces.  (lodash additionally splits camelCase and letter/digit
boundaries and deburrs Unicode; no claim exercises those inputs.) -/
def startCase (s : String) : String :=
  joinSep " " ((wordRuns [] s.data).map (fun w => (⟨upperFirst w⟩ : String)))

/-! ## Node `path` (posix) functions used by the core

The repository runs these from Node's `path` module (`join`, `relative`,
`dirname`, `basename`, `extname`, `sep`); they are modelled here for
posix (`sep = "/"`) on already-normalized absolute inputs, which is how the
core calls them. -/

/-- Split a character list on a separator character; mirrors
`String.prototype.split(sep)` (always at least one piece). -/
def splitOnChar (sep : Char) : List Char → List (List Char)
  | [] => [[]]
  | c :: cs =>
    let r := splitOnChar sep cs
    if c == sep then [] :: r
    else
      match r with
      | [] => [[c]]
      | h :: t => (c :: h) :: t

/-- Split a path string on `/`. -/
def splitPath (p : String) : List String :=
  (splitOnChar '/' p.data).map (fun l => (⟨l⟩ : String))

/-- Node `path.posix.dirname`. -/
def dirname (p : String) : String :=
  let parts := splitPath p
  if parts.length ≤ 1 then "."
  else
    let s := joinSep "/" parts.dropLast
    if s == "" then "/" else s

/-- The last `/`-separated component of a path. -/
def lastComponent (p : String) : String := (splitPath p).getLastD ""

/-- Node `path.posix.extname` on a basename: the suffix from the last `.`,
unless that dot is the first character. -/
def extnameList (b : List Char) : List Char :=
  match b.reverse.findIdx? (fun c => c == '.') with
  | none => []
  | some k =>
    let i := b.length - 1 - k
    if i == 0 then [] else b.drop i

/-- Node `path.posix.extname`. -/
def extname (p : String) : String := ⟨extnameList (lastComponent p).data⟩

/-- Node `path.posix.basename(p, ext)`: the last component, with the suffix
`ext` stripped when it is a proper suffix. -/
def basename (p ext : String) : String :=
  let b := lastComponent p
  if ext == b then b
  else if ext.data.isSuffixOf b.data then ⟨b.data.take (b.data.length - ext.data.length)⟩
  else b

/-- Resolve `.`, `..` and empty segments; `acc` holds output segments
reversed.  In an absolute path, `..` at the root is dropped. -/
def normSegs (isAbs : Bool) (acc : List String) : List String → List String
  | [] => acc.reverse
  | s :: rest =>
    if s == "" || s == "." then normSegs isAbs acc rest
    else if s == ".." then
      match acc with
      | [] => if isAbs then normSegs isAbs [] rest else normSegs isAbs [".."] rest
      | t :: acc' =>
        if t == ".." then normSegs isAbs (s :: t :: acc') rest
        else normSegs isAbs acc' rest
    else normSegs isAbs (s :: acc) rest

/-- Node `path.posix.normalize` (without trailing-slash preservation). -/
def pathNormalize (p : String) : String :=
  let isAbs := p.data.head? == some '/'
  let segs := normSegs isAbs [] (splitPath p)
  let body := joinSep "/" segs
  if isAbs then "/" ++ body else if body == "" then "." else body

/-- Node `path.posix.join` of two segments, as called by the core. -/
def pathJoin (a b : String) : String := pathNormalize (a ++ "/" ++ b)

/-- Drop the common prefix of two segment lists. -/
def dropCommon : List String → List String → List String × List String
  | a :: as, b :: bs => if a == b then dropCommon as bs else (a :: as, b :: bs)
  | as, bs => (as, bs)

/-- Node `path.posix.relative` for absolute inputs: drop the common segment
prefix, go up once per remaining source segment, then down the target. -/
def pathRelative (f t : String) : String :=
  let fs := (splitPath f).filter (fun s => s != "")
  let ts := (splitPath t).filter (fun s => s != "")
  let p := dropCommon fs ts
  joinSep "/" (p.1.map (fun _ => "..") ++ p.2)

/-- `startsWith` via list prefixes (avoids `String.Pos` iteration). -/
def strStartsWith (s p : String) : Bool := p.data.isPrefixOf s.data

/-! ## Data model (src/index.ts lines 96-141)

`MarkDownConcatenator` holds `visitedDirs : Set<string>` and
`fileTitleIndex : Map<string, {title, level, md}>`.  A JS `Set` is an
insertion-ordered list without duplicates, a JS `Map` an insertion-ordered
association list where `Map.set` replaces the value in place for an existing
key and appends otherwise. -/

/-- A value of the `fileTitleIndex` map: `{ title, level, md }`. -/
structure TitleEntry where
  title : String
  level : Int
  md : String
deriving Repr, DecidableEq

/-- A `File` as produced by front-matter extraction:
`{ path, attributes, body }`. -/
structure File where
  path : String
  attributes : List (String × String) := []
  body : String := ""
deriving Repr, DecidableEq

/-- The constructor options after defaulting (lines 113-141).  `joinString`
and `titleKey` keep their raw optional form; `toc`/`tocLevel` and the glob
options configure external collaborators (doctoc, globby) and are not part
of the embedded core (every claim runs with `toc = false`, where
`addGlobalTitleAndToc` only consults `title`). -/
structure Config where
  title : Option String := none
  decreaseTitleLevels : Bool := false
  startTitleLevelAt : Int := 1
  joinString : Option String := none
  titleKey : Option String := none
  fileNameAsTitle : Bool := false
  dirNameAsTitle : Bool := false
deriving Repr, DecidableEq

/-- The mutable state of one run: `visitedDirs` and `fileTitleIndex`. -/
structure ConcatState where
  visitedDirs : List String := []
  fileTitleIndex : List (String × TitleEntry) := []
deriving Repr, DecidableEq

/-- `Map.prototype.get`. -/
def mapGet (m : List (String × TitleEntry)) (k : String) : Option TitleEntry :=
  match m.find? (fun p => p.1 == k) with
  | some p => some p.2
  | none => none

/-- `Map.prototype.set`: replace in place if the key is present, else
append. -/
def mapSet (m : List (String × TitleEntry)) (k : String) (v : TitleEntry) :
    List (String × TitleEntry) :=
  if m.any (fun p => p.1 == k) then m.map (fun p => if p.1 == k then (k, v) else p)
  else m ++ [(k, v)]

/-- `"#".repeat(level)` (lines 195, 210).  JS `repeat` throws a `RangeError`
on a negative count; at both call sites `level` is at least 1 whenever
`startTitleLevelAt` is at least 1, and the clamp `Int.toNat` only differs
where JS would throw. -/
def hashes (level : Int) : String := ⟨List.replicate level.toNat '#'⟩

/-- `this.joinString = joinString ? `\n${joinString}\n` : "\n"` (line 137).
An empty string is falsy in JS, so it falls back to `"\n"`. -/
def mkJoinString : Option String → String
  | none => "\n"
  | some s => if s == "" then "\n" else "\n" ++ s ++ "\n"

/-! ## `addTitle` (src/index.ts lines 178-218) -/

/-- `file.attributes[key]` lookup. -/
def attrLookup (attrs : List (String × String)) (k : String) : Option String :=
  match attrs.find? (fun p => p.1 == k) with
  | some p => some p.2
  | none => none

/-- `this.titleKey && file.attributes && file.attributes[this.titleKey]`
(line 204): an empty-string attribute value is falsy. -/
def titleFromMeta (cfg : Config) (file : File) : Option String :=
  match cfg.titleKey with
  | none => none
  | some k =>
    match attrLookup file.attributes k with
    | some v => if v == "" then none else some v
    | none => none

/-- `getDirParts` (lines 178-180):
`this.dir === dirname(file.path) ? [] : relative(this.dir, dirname(file.path)).split(sep)`. -/
def getDirParts (dir : String) (file : File) : List String :=
  if dir == dirname file.path then []
  else splitPath (pathRelative dir (dirname file.path))

/-- Loop state of the `dirParts.forEach` in `addTitle` (lines 189-201):
the running `currentDir`, `level`, `titleMd` and the mutated
`visitedDirs`/`fileTitleIndex`. -/
structure DirAcc where
  currentDir : String
  level : Int
  titleMd : String
  st : ConcatState
deriving Repr, DecidableEq

/-- One iteration of the `forEach` over `dirParts` (lines 191-201).  Note
that `level += 1` happens before — and regardless of — the
`visitedDirs.has(currentDir)` check; only the heading emission and the
index/set insertions are guarded by it. -/
def dirStep (dir : String) (acc : DirAcc) (part : String) : DirAcc :=
  let currentDir := if acc.currentDir != "" then acc.currentDir ++ "/" ++ part else part
  let level := acc.level + 1
  if acc.st.visitedDirs.contains currentDir then
    { currentDir := currentDir, level := level, titleMd := acc.titleMd, st := acc.st }
  else
    let dirTitle := startCase part
    let titleMd := acc.titleMd ++ hashes level ++ " " ++ dirTitle ++ "\n\n"
    { currentDir := currentDir, level := level, titleMd := titleMd,
      st := { visitedDirs := acc.st.visitedDirs ++ [currentDir],
              fileTitleIndex :=
                mapSet acc.st.fileTitleIndex (pathJoin dir currentDir)
                  { title := dirTitle, level := level, md := titleMd } } }

/-- `addTitle` (lines 182-218). -/
def addTitle (cfg : Config) (dir : String) (st : ConcatState) (file : File) :
    ConcatState :=
  let acc0 : DirAcc :=
    { currentDir := "", level := cfg.startTitleLevelAt - 1, titleMd := "", st := st }
  let acc := if cfg.dirNameAsTitle then (getDirParts dir file).foldl (dirStep dir) acc0
             else acc0
  let tMeta := titleFromMeta cfg file
  let titleFromFileName := startCase (basename file.path (extname file.path))
  if tMeta.isSome || cfg.fileNameAsTitle then
    let fileTitle := tMeta.getD titleFromFileName
    let level := acc.level + 1
    let titleMd := acc.titleMd ++ hashes level ++ " " ++ fileTitle ++ "\n\n"
    { acc.st with
      fileTitleIndex := mapSet acc.st.fileTitleIndex file.path
        { title := fileTitle, level := level, md := titleMd } }
  else
    let fileTitle := gitHubLink (pathRelative dir file.path)
    let titleMd := acc.titleMd ++ "\n<a name=\"" ++ fileTitle ++ "\"></a>\n\n"
    { acc.st with
      fileTitleIndex := mapSet acc.st.fileTitleIndex file.path
        { title := fileTitle, level := acc.level, md := titleMd } }

/-- `getTitle` (lines 220-227): `throw new Error(...)` becomes
`Except.error`. -/
def getTitle (st : ConcatState) (filePath : String) : Except String TitleEntry :=
  match mapGet st.fileTitleIndex filePath with
  | some t => Except.ok t
  | none => Except.error ("Cannot get title for " ++ filePath)

/-! ## `decreaseTitleLevelsBy` (src/index.ts lines 143-145)

```ts
private decreaseTitleLevelsBy(body: string, level: number): string {
  return !this.decreaseTitleLevels || level <= 0
    ? body
    : body.replace(re, `$1${"#".repeat(level)}`);
}
```
where `re` matches a leading run of `#` at each line start (multiline `^`,
global).  The replacement appends `level` extra `#` after the existing run
(`$1`).  The body is modelled as its list of lines (pieces between JS line
terminators); each line beginning with `#` gets the `#` run extended. -/

/-- The per-line effect of `replace` with the leading-`#`-run pattern: a line
starting with `#` has `n` extra `#` appended directly after the run of `#`. -/
def shiftLineList (n : Nat) (l : List Char) : List Char :=
  if l.head? = some '#' then
    l.takeWhile (fun c => c == '#') ++ List.replicate n '#' ++
      l.dropWhile (fun c => c == '#')
  else l

/-- Split a body into lines, each paired with the terminator that ended it
(`none` for the final line). -/
def splitLines : List Char → List (List Char × Option Char)
  | [] => [([], none)]
  | c :: cs =>
    if isLineTerm c then ([], some c) :: splitLines cs
    else
      match splitLines cs with
      | [] => [([c], none)]
      | (ln, t) :: rest => (c :: ln, t) :: rest

/-- Reassemble lines and their terminators. -/
def joinLines : List (List Char × Option Char) → List Char
  | [] => []
  | (ln, none) :: rest => ln ++ joinLines rest
  | (ln, some c) :: rest => ln ++ c :: joinLines rest

/-- `body.replace(re-with-multiline-anchor, append-run)` on character
lists: apply `shiftLineList` to every line. -/
def shiftBody (n : Nat) (l : List Char) : List Char :=
  joinLines ((splitLines l).map (fun p => (shiftLineList n p.1, p.2)))

/-- `decreaseTitleLevelsBy`. -/
def decreaseTitleLevelsBy (dtl : Bool) (body : String) (level : Int) : String :=
  if !dtl || level ≤ 0 then body else ⟨shiftBody level.toNat body.data⟩

/-- Well-formed output of `splitLines`: every line is free of terminators,
every line but the last carries its terminator, the last carries none. -/
inductive LinesWF : List (List Char × Option Char) → Prop
  | last (ln : List Char) (h : ∀ c ∈ ln, isLineTerm c = false) :
      LinesWF [(ln, none)]
  | cons (ln : List Char) (c : Char) (rest : List (List Char × Option Char))
      (h : ∀ x ∈ ln, isLineTerm x = false) (hc : isLineTerm c = true)
      (hr : LinesWF rest) : LinesWF ((ln, some c) :: rest)

/-! ## Link rewriting (src/index.ts lines 253-278)

`transformLinks(file.body, callback)` comes from the
`transform-markdown-links` npm dependency, whose source is not part of this
repository.  Modelled from the spec: "rewrite every markdown link target" —
it rewrites each inline link `[text](url)`, replacing `url` by
`callback(url)` (the effect of replacing on the pattern
"bracketed text without a closing bracket, then a parenthesized target
without a closing parenthesis").  The scanner below is that replacement as
a four-mode state machine. -/

/-- Scanner mode for `transformLinks`: outside a link, inside `[text`,
just after `[text]`, or inside `[text](url`. -/
inductive TLMode where
  | normal
  | text (acc : List Char)
  | close (acc : List Char)
  | url (text acc : List Char)

/-- The link-rewriting scan.  Accumulators are reversed. -/
def tlRun (f : String → String) : TLMode → List Char → List Char
  | .normal, [] => []
  | .text acc, [] => '[' :: acc.reverse
  | .close acc, [] => '[' :: acc.reverse ++ [']']
  | .url t acc, [] => '[' :: t.reverse ++ ']' :: '(' :: acc.reverse
  | .normal, c :: cs =>
    if c == '[' then tlRun f (.text []) cs else c :: tlRun f .normal cs
  | .text acc, c :: cs =>
    if c == ']' then tlRun f (.close acc) cs else tlRun f (.text (c :: acc)) cs
  | .close acc, c :: cs =>
    if c == '(' then tlRun f (.url acc []) cs
    else if c == '[' then ('[' :: acc.reverse ++ [']']) ++ tlRun f (.text []) cs
    else ('[' :: acc.reverse ++ [']']) ++ c :: tlRun f .normal cs
  | .url t acc, c :: cs =>
    if c == ')' then
      '[' :: t.reverse ++ ']' :: '(' ::
        ((f (⟨acc.reverse⟩ : String)).data ++ ')' :: tlRun f .normal cs)
    else tlRun f (.url t (c :: acc)) cs

/-- `transformLinks(body, f)`. -/
def transformLinks (body : String) (f : String → String) : String :=
  ⟨tlRun f .normal body.data⟩

/-- `absoluteTargetPath.indexOf("#")` and the two `slice`s (lines 265-267):
the part before the first `#`, and from the `#` on (inclusive) when
present. -/
def hashSplit (s : String) : String × Option String :=
  match s.data.findIdx? (fun c => c == '#') with
  | some i => (⟨s.data.take i⟩, some ⟨s.data.drop i⟩)
  | none => (s, none)

/-- The callback of `modifyLinks` (lines 254-277).  A present hash is a
nonempty string, hence truthy, so `hash || ...` keeps it; otherwise the
`try`/`catch` turns a `getTitle` failure into `""`. -/
def rewriteLink (st : ConcatState) (filePath link : String) : String :=
  if strStartsWith link "http" then link
  else
    let absoluteTargetPath := pathJoin (dirname filePath) link
    let parts := hashSplit absoluteTargetPath
    match parts.2 with
    | some hash => hash
    | none =>
      match getTitle st parts.1 with
      | Except.ok t => "#" ++ gitHubLink t.title
      | Except.error _ => ""

/-- `modifyLinks` (line 253-278). -/
def modifyLinks (st : ConcatState) (file : File) : String :=
  transformLinks file.body (rewriteLink st file.path)

/-! ## The driver `concatFiles` (src/index.ts lines 280-295) -/

/-- `addGlobalTitleAndToc` (lines 229-251) for `toc = false`: prepend
`# title\n` when a global title is configured.  (The `toc = true` branch
delegates to the external doctoc transform and is outside the embedding;
no claim enables it.) -/
def addGlobalTitleAndToc (cfg : Config) (content : String) : String :=
  match cfg.title with
  | some t => "# " ++ t ++ "\n" ++ content
  | none => content

/-- One iteration of the first `forEach` (lines 281-286): `addTitle`, then
`getTitle(file.path)` (an uncaught throw here would propagate out of
`concatFiles`), then heading shift and title prefix. -/
def pass1Step (cfg : Config) (dir : String) (acc : ConcatState × List File)
    (file : File) : Except String (ConcatState × List File) :=
  let st := addTitle cfg dir acc.1 file
  match getTitle st file.path with
  | Except.error e => Except.error e
  | Except.ok t =>
    let body := decreaseTitleLevelsBy cfg.decreaseTitleLevels file.body t.level
    Except.ok (st, acc.2 ++ [{ file with body := t.md ++ body }])

/-- The whole first pass over the ordered file list. -/
def pass1 (cfg : Config) (dir : String) (files : List File) :
    Except String (ConcatState × List File) :=
  files.foldlM (pass1Step cfg dir) ({ visitedDirs := [], fileTitleIndex := [] }, [])

/-- `concatFiles` (lines 280-295): pass 1, then the link-rewriting second
pass, then the join and the global title wrapper. -/
def concatFiles (cfg : Config) (dir : String) (files : List File) :
    Except String String :=
  match pass1 cfg dir files with
  | Except.error e => Except.error e
  | Except.ok (st, files1) =>
    let files2 := files1.map (fun f => { f with body := modifyLinks st f })
    let result := joinSep (mkJoinString cfg.joinString) (files2.map (fun f => f.body))
    Except.ok (addGlobalTitleAndToc cfg result)

/-! ## Concrete scenario data used by the claims -/

/-- `dirNameAsTitle` and `fileNameAsTitle`, other options default. -/
def cfgDirFile : Config := { dirNameAsTitle := true, fileNameAsTitle := true }

/-- Only a front-matter `title` key configured. -/
def cfgMeta : Config := { titleKey := some "title" }

/-- All options default. -/
def cfgDefault : Config := {}

/-- `fileNameAsTitle` with an empty (falsy) `joinString`. -/
def cfgJoinEmpty : Config := { fileNameAsTitle := true, joinString := some "" }

/-- A custom `joinString`. -/
def cfgJoin : Config := { joinString := some "---" }

/-- The fresh run state. -/
def emptyState : ConcatState := { visitedDirs := [], fileTitleIndex := [] }

def fileA : File := { path := "/d/a.md", attributes := [], body := "# A\n" }
def fileSubB : File := { path := "/d/sub/b.md", attributes := [], body := "[link](../a.md)" }
def fileSubA0 : File := { path := "/d/sub/a.md", attributes := [], body := "" }
def fileSubB0 : File := { path := "/d/sub/b.md", attributes := [], body := "" }
def fileMeta1 : File := { path := "/d/a.md", attributes := [("title", "First")], body := "" }
def fileMeta2 : File := { path := "/d/a.md", attributes := [("title", "Second")], body := "" }
def fileLinkB : File := { path := "/d/a.md", attributes := [], body := "[x](b.md)" }
def fileBodyA : File := { path := "/d/a.md", attributes := [], body := "A body" }
def fileBodyB : File := { path := "/d/b.md", attributes := [], body := "B" }
def fileX : File := { path := "/d/x.md", attributes := [], body := "" }

/-- A directory-loop state whose visited set already holds `sub`. -/
def accVisited : DirAcc :=
  { currentDir := "", level := 0, titleMd := "",
    st := { visitedDirs := ["sub"], fileTitleIndex := [] } }

/-! ## Helper lemmas: the slug function

`gitHubLink` is a fixed point on its own image: its output consists of
hyphens and kept, non-space, non-capital characters, with no trailing
hyphen, and each pipeline stage leaves such a string unchanged. -/

theorem toNat_ofNat_valid (n : Nat) (h : n.isValidChar) :
    (Char.ofNat n).toNat = n := by
  unfold Char.ofNat
  rw [dif_pos h]
  rfl

theorem toLower_eq_of_not_upper (c : Char) (h : ¬(c.toNat ≥ 65 ∧ c.toNat ≤ 90)) :
    c.toLower = c := by
  simp only [Char.toLower]
  rw [if_neg h]

/-- `toLower` never outputs an ASCII capital. -/
theorem toLower_toNat_not_upper (c : Char) :
    ¬((Char.toLower c).toNat ≥ 65 ∧ (Char.toLower c).toNat ≤ 90) := by
  simp only [Char.toLower]
  by_cases h : c.toNat ≥ 65 ∧ c.toNat ≤ 90
  · rw [if_pos h, toNat_ofNat_valid (c.toNat + 32) (Or.inl (by omega))]
    omega
  · rw [if_neg h]
    omega

/-- Every character of `gitHubLink`'s output is a `slugChar`. -/
theorem gitHubLinkList_mem (l : List Char) (c : Char)
    (hc : c ∈ gitHubLinkList l) : slugChar c := by
  simp only [gitHubLinkList] at hc
  rw [List.mem_reverse] at hc
  have hc2 := List.dropWhile_subset _ hc
  rw [List.mem_reverse] at hc2
  obtain ⟨c₀, hc₀, rfl⟩ := List.mem_map.mp hc2
  have hkeep := List.of_mem_filter hc₀
  have hmem := List.mem_of_mem_filter hc₀
  obtain ⟨c₁, -, rfl⟩ := List.mem_map.mp hmem
  by_cases hsp : jsSpace (Char.toLower c₁) = true
  · left
    simp [hsp]
  · have hsp' : jsSpace (Char.toLower c₁) = false := by simpa using hsp
    right
    refine ⟨by simpa [hsp'] using hkeep, by simp [hsp'],
      by simpa [hsp'] using toLower_toNat_not_upper c₁⟩

/-- `dropWhile` is the identity when no element satisfies the predicate. -/
theorem dropWhile_eq_self_of_all (p : Char → Bool) (l : List Char)
    (h : ∀ c ∈ l, p c = false) : l.dropWhile p = l := by
  cases l with
  | nil => rfl
  | cons c t => exact List.dropWhile_cons_of_neg (by simp [h c (by simp)])

/-- `dropWhile` is the identity when the head does not satisfy the
predicate. -/
theorem dropWhile_eq_self_of_head (p : Char → Bool) (l : List Char)
    (h : ∀ x, l.head? = some x → p x = false) : l.dropWhile p = l := by
  cases l with
  | nil => rfl
  | cons c t => exact List.dropWhile_cons_of_neg (by simp [h c rfl])

/-- The output of `gitHubLink` has no trailing hyphen (the job of its final
`replace`). -/
theorem gitHubLinkList_no_trailing (l : List Char) :
    ∀ x, (gitHubLinkList l).reverse.head? = some x → (x == '-') = false := by
  intro x hx
  simp only [gitHubLinkList] at hx
  rw [List.reverse_reverse] at hx
  have h2 := List.head?_dropWhile_not (fun c => c == '-')
    ((((trimChars l).map Char.toLower).filter keepChar).map
      (fun c => if jsSpace c then '-' else c)).reverse
  rw [hx] at h2
  simpa using h2

/-- Every list of `slugChar`s without a trailing hyphen is a fixed point of
the slug pipeline. -/
theorem slug_fixed_point (r : List Char) (h : ∀ c ∈ r, slugChar c)
    (htr : ∀ x, r.reverse.head? = some x → (x == '-') = false) :
    gitHubLinkList r = r := by
  have hspace : ∀ c ∈ r, jsSpace c = false := by
    intro c hc
    rcases h c hc with rfl | ⟨-, h2, -⟩
    · decide
    · exact h2
  have h1 : trimChars r = r := by
    unfold trimChars
    rw [dropWhile_eq_self_of_all _ _ hspace,
        dropWhile_eq_self_of_all _ _ (fun c hc => hspace c (List.mem_reverse.mp hc)),
        List.reverse_reverse]
  have h2 : r.map Char.toLower = r := by
    have hmap : r.map Char.toLower = r.map id := by
      apply List.map_congr_left
      intro c hc
      rcases h c hc with rfl | ⟨-, -, h3⟩
      · decide
      · exact toLower_eq_of_not_upper c h3
    rw [hmap, List.map_id]
  have h3 : r.filter keepChar = r := by
    rw [List.filter_eq_self]
    intro c hc
    rcases h c hc with rfl | ⟨h1', -, -⟩
    · decide
    · exact h1'
  have h4 : r.map (fun c => if jsSpace c then '-' else c) = r := by
    have hmap : r.map (fun c => if jsSpace c then '-' else c) = r.map id := by
      apply List.map_congr_left
      intro c hc
      simp [hspace c hc]
    rw [hmap, List.map_id]
  have h5 : r.reverse.dropWhile (fun c => c == '-') = r.reverse :=
    dropWhile_eq_self_of_head _ _ htr
  simp only [gitHubLinkList]
  rw [h1, h2, h3, h4, h5, List.reverse_reverse]

/-- The slug function is idempotent (character-list level). -/
theorem gitHubLinkList_idem (l : List Char) :
    gitHubLinkList (gitHubLinkList l) = gitHubLinkList l :=
  slug_fixed_point _ (gitHubLinkList_mem l) (gitHubLinkList_no_trailing l)

/-! ## Helper lemmas: the title index -/

/-- `Map.set` then `Map.get` of the same key yields the new value. -/
theorem find?_map_overwrite (m : List (String × TitleEntry)) (k : String)
    (v : TitleEntry) (h : m.any (fun p => p.1 == k) = true) :
    (m.map (fun p => if p.1 == k then (k, v) else p)).find? (fun p => p.1 == k) =
      some (k, v) := by
  induction m with
  | nil => simp at h
  | cons q t ih =>
    by_cases hq : (q.1 == k) = true
    · rw [List.map_cons, if_pos hq, List.find?_cons_of_pos _ (by simp)]
    · simp only [List.any_cons, Bool.not_eq_true] at h hq
      simp only [hq, Bool.false_or] at h
      rw [List.map_cons, if_neg (by simp [hq]), List.find?_cons_of_neg _ (by simp [hq])]
      exact ih h

/-- Appending a fresh binding and looking it up. -/
theorem find?_append_fresh (m : List (String × TitleEntry)) (k : String)
    (v : TitleEntry) (h : m.any (fun p => p.1 == k) = false) :
    (m ++ [(k, v)]).find? (fun p => p.1 == k) = some (k, v) := by
  induction m with
  | nil => simp [List.find?_cons]
  | cons q t ih =>
    simp only [List.any_cons, Bool.or_eq_false_iff] at h
    simp only [List.cons_append, List.find?_cons, h.1]
    exact ih h.2

/-- JS `Map.set` followed by `Map.get` of the same key. -/
theorem mapGet_mapSet_self (m : List (String × TitleEntry)) (k : String)
    (v : TitleEntry) : mapGet (mapSet m k v) k = some v := by
  unfold mapGet mapSet
  by_cases h : (m.any fun p => p.1 == k) = true
  · rw [if_pos h, find?_map_overwrite m k v h]
  · simp only [Bool.not_eq_true] at h
    rw [if_neg (by simp [h]), find?_append_fresh m k v h]

/-- The keys of the index after `Map.set`: unchanged when the key was
present, the key appended otherwise. -/
theorem mapSet_keys (m : List (String × TitleEntry)) (k : String) (v : TitleEntry) :
    (mapSet m k v).map Prod.fst =
      if m.any (fun p => p.1 == k) then m.map Prod.fst
      else m.map Prod.fst ++ [k] := by
  unfold mapSet
  by_cases h : (m.any fun p => p.1 == k) = true
  · rw [if_pos h, if_pos h, List.map_map]
    apply List.map_congr_left
    intro p _
    by_cases hp : p.1 = k
    · simp [hp]
    · simp [hp]
  · rw [if_neg h, if_neg h]
    simp

/-- `Map.set` preserves duplicate-freedom of the keys. -/
theorem mapSet_keys_nodup (m : List (String × TitleEntry)) (k : String)
    (v : TitleEntry) (h : (m.map Prod.fst).Nodup) :
    ((mapSet m k v).map Prod.fst).Nodup := by
  rw [mapSet_keys]
  by_cases hx : (m.any fun p => p.1 == k) = true
  · rw [if_pos hx]; exact h
  · rw [if_neg hx]
    simp only [Bool.not_eq_true, List.any_eq_false] at hx
    refine h.append (List.nodup_singleton k) ?_
    intro a ha hb
    simp only [List.mem_singleton] at hb
    subst hb
    obtain ⟨p, hp, rfl⟩ := List.mem_map.mp ha
    exact absurd (hx p hp) (by simp)

/-- The level counter of the directory loop rises by one per component,
visited or not (`level += 1` on line 193 precedes the `visitedDirs` check
on line 194). -/
theorem dirStep_level (dir : String) (acc : DirAcc) (part : String) :
    (dirStep dir acc part).level = acc.level + 1 := by
  simp only [dirStep]
  split <;> split <;> rfl

/-- A `dirStep` on an already-visited cumulative directory leaves the run
state (visited set and title index) unchanged. -/
theorem dirStep_visited (dir : String) (acc : DirAcc) (part : String)
    (h : acc.st.visitedDirs.contains
      (if acc.currentDir != "" then acc.currentDir ++ "/" ++ part else part) = true) :
    (dirStep dir acc part).st = acc.st := by
  simp only [dirStep]
  rw [if_pos h]

/-- `addTitle` always ends by binding `file.path` in the index (line 217 or
line 211's branch), so the immediate `getTitle(file.path)` in `concatFiles`
cannot fail. -/
theorem addTitle_binds_path (cfg : Config) (dir : String) (st : ConcatState)
    (file : File) :
    ∃ e : TitleEntry,
      mapGet (addTitle cfg dir st file).fileTitleIndex file.path = some e := by
  simp only [addTitle]
  by_cases hc : ((titleFromMeta cfg file).isSome || cfg.fileNameAsTitle) = true
  · rw [if_pos hc]; exact ⟨_, mapGet_mapSet_self ..⟩
  · rw [if_neg hc]; exact ⟨_, mapGet_mapSet_self ..⟩

/-- `dirStep` preserves duplicate-freedom of the index keys. -/
theorem dirStep_keys_nodup (dir : String) (acc : DirAcc) (part : String)
    (h : (acc.st.fileTitleIndex.map Prod.fst).Nodup) :
    (((dirStep dir acc part).st.fileTitleIndex).map Prod.fst).Nodup := by
  simp only [dirStep]
  split <;> split
  · exact h
  · exact mapSet_keys_nodup _ _ _ h
  · exact h
  · exact mapSet_keys_nodup _ _ _ h

/-- The directory loop preserves duplicate-freedom of the index keys. -/
theorem dirSteps_keys_nodup (dir : String) (parts : List String) :
    ∀ acc : DirAcc, (acc.st.fileTitleIndex.map Prod.fst).Nodup →
      (((parts.foldl (dirStep dir) acc).st.fileTitleIndex).map Prod.fst).Nodup := by
  induction parts with
  | nil => intro acc h; exact h
  | cons p t ih =>
    intro acc h
    rw [List.foldl_cons]
    exact ih _ (dirStep_keys_nodup dir acc p h)

/-- `getTitle` right after `addTitle` of the same path always succeeds. -/
theorem getTitle_addTitle_self (cfg : Config) (dir : String) (st : ConcatState)
    (file : File) :
    ∃ e : TitleEntry, getTitle (addTitle cfg dir st file) file.path = Except.ok e := by
  obtain ⟨e, he⟩ := addTitle_binds_path cfg dir st file
  exact ⟨e, by simp [getTitle, he]⟩

/-- `pass1Step` never fails. -/
theorem pass1Step_ok (cfg : Config) (dir : String) (acc : ConcatState × List File)
    (file : File) :
    ∃ r, pass1Step cfg dir acc file = Except.ok r := by
  simp only [pass1Step]
  obtain ⟨e, he⟩ := getTitle_addTitle_self cfg dir acc.1 file
  rw [he]
  exact ⟨_, rfl⟩

/-- The fold of `pass1Step` never fails, from any starting state. -/
theorem foldlM_pass1Step_ok (cfg : Config) (dir : String) (files : List File) :
    ∀ a : ConcatState × List File,
      ∃ r, List.foldlM (pass1Step cfg dir) a files = Except.ok r := by
  induction files with
  | nil => intro a; exact ⟨a, rfl⟩
  | cons f t ih =>
    intro a
    obtain ⟨r, hr⟩ := pass1Step_ok cfg dir a f
    simpa [List.foldlM_cons, hr] using ih r

/-- The first pass never fails: every file just titled can be looked up. -/
theorem pass1_ok (cfg : Config) (dir : String) (files : List File) :
    ∃ r, pass1 cfg dir files = Except.ok r := by
  unfold pass1
  exact foldlM_pass1Step_ok cfg dir files _

/-! ## Helper lemmas: the heading rewriter -/

/-- `takeWhile` of a `dropWhile` by the same predicate is empty. -/
theorem takeWhile_dropWhile_nil (p : Char → Bool) (l : List Char) :
    (l.dropWhile p).takeWhile p = [] := by
  induction l with
  | nil => rfl
  | cons c t ih =>
    by_cases h : p c = true
    · rw [List.dropWhile_cons_of_pos h]; exact ih
    · rw [List.dropWhile_cons_of_neg h, List.takeWhile_cons_of_neg h]

/-- `dropWhile` is idempotent. -/
theorem dropWhile_dropWhile (p : Char → Bool) (l : List Char) :
    (l.dropWhile p).dropWhile p = l.dropWhile p := by
  induction l with
  | nil => rfl
  | cons c t ih =>
    by_cases h : p c = true
    · rw [List.dropWhile_cons_of_pos h]; exact ih
    · rw [List.dropWhile_cons_of_neg h, List.dropWhile_cons_of_neg h]

/-- Appending `b` extra `#` to a line already extended by `a` extra `#`
equals appending `a + b` at once: the whole extended leading run is still a
run of `#`. -/
theorem shiftLineList_of_head (n : Nat) (l : List Char) (h : l.head? = some '#') :
    shiftLineList n l =
      l.takeWhile (fun c => c == '#') ++ List.replicate n '#' ++
        l.dropWhile (fun c => c == '#') := by
  rw [shiftLineList, if_pos h]

theorem shiftLineList_of_head_ne (n : Nat) (l : List Char)
    (h : ¬ l.head? = some '#') : shiftLineList n l = l := by
  rw [shiftLineList, if_neg h]

/-- Appending `b` extra `#` to a line already extended by `a` extra `#`
equals appending `a + b` at once: the whole extended leading run is still a
run of `#`. -/
theorem shiftLineList_comp (a b : Nat) (l : List Char) :
    shiftLineList b (shiftLineList a l) = shiftLineList (a + b) l := by
  by_cases h : l.head? = some '#'
  · obtain ⟨t, rfl⟩ : ∃ t, l = '#' :: t := by
      cases l with
      | nil => simp at h
      | cons c t =>
        have hc : c = '#' := by simpa using h
        exact ⟨t, by rw [hc]⟩
    have htall : ∀ x ∈ List.takeWhile (fun c => c == '#') ('#' :: t) ++
        List.replicate a '#', x == '#' := by
      intro x hx
      rcases List.mem_append.mp hx with hx | hx
      · simpa using List.mem_takeWhile_imp hx
      · simpa using (List.mem_replicate.mp hx).2
    have hihead : (shiftLineList a ('#' :: t)).head? = some '#' := by
      rw [shiftLineList_of_head a _ h, List.takeWhile_cons_of_pos (by simp)]
      rfl
    rw [shiftLineList_of_head b _ hihead, shiftLineList_of_head a _ h,
        shiftLineList_of_head (a + b) _ h,
        List.takeWhile_append_of_pos htall, List.dropWhile_append_of_pos htall,
        takeWhile_dropWhile_nil, dropWhile_dropWhile]
    simp only [List.append_nil, List.replicate_add, List.append_assoc]
  · rw [shiftLineList_of_head_ne a l h,
        shiftLineList_of_head_ne b l h, shiftLineList_of_head_ne (a + b) l h]

/-- `splitLines` produces well-formed output. -/
theorem linesWF_splitLines (l : List Char) : LinesWF (splitLines l) := by
  induction l with
  | nil => exact .last [] (by simp)
  | cons c cs ih =>
    by_cases hc : isLineTerm c = true
    · simp only [splitLines, if_pos hc]
      exact .cons [] c _ (by simp) hc ih
    · simp only [splitLines, if_neg hc]
      have hc' : isLineTerm c = false := by simpa using hc
      generalize hq : splitLines cs = ps at ih ⊢
      cases ih with
      | last ln h =>
        refine .last (c :: ln) ?_
        intro x hx
        rcases List.mem_cons.mp hx with rfl | hx
        · exact hc'
        · exact h x hx
      | cons ln c' rest h hcc hr =>
        refine .cons (c :: ln) c' rest ?_ hcc hr
        intro x hx
        rcases List.mem_cons.mp hx with rfl | hx
        · exact hc'
        · exact h x hx

/-- Splitting a terminator-free list yields one unterminated line. -/
theorem splitLines_no_term (ln : List Char) (h : ∀ c ∈ ln, isLineTerm c = false) :
    splitLines ln = [(ln, none)] := by
  induction ln with
  | nil => rfl
  | cons c t ih =>
    have hc : isLineTerm c = false := h c (by simp)
    rw [splitLines, if_neg (by simp [hc]), ih (fun x hx => h x (by simp [hx]))]

/-- Splitting a terminator-free line, a terminator, and a remainder. -/
theorem splitLines_append (ln : List Char) (c : Char) (y : List Char)
    (h : ∀ x ∈ ln, isLineTerm x = false) (hc : isLineTerm c = true) :
    splitLines (ln ++ c :: y) = (ln, some c) :: splitLines y := by
  induction ln with
  | nil => rw [List.nil_append, splitLines, if_pos hc]
  | cons a t ih =>
    have ha : isLineTerm a = false := h a (by simp)
    rw [List.cons_append, splitLines, if_neg (by simp [ha]),
        ih (fun x hx => h x (by simp [hx]))]

/-- `splitLines` of a reassembled well-formed line list recovers it. -/
theorem splitLines_joinLines (ps : List (List Char × Option Char))
    (h : LinesWF ps) : splitLines (joinLines ps) = ps := by
  induction h with
  | last ln hln =>
    rw [joinLines, joinLines, List.append_nil]
    exact splitLines_no_term ln hln
  | cons ln c rest hln hc hr ih =>
    rw [joinLines, splitLines_append ln c _ hln hc, ih]

/-- Characters of a shifted line come from the line or are `#`. -/
theorem mem_shiftLineList (n : Nat) (l : List Char) (c : Char)
    (hc : c ∈ shiftLineList n l) : c ∈ l ∨ c = '#' := by
  rw [shiftLineList] at hc
  split at hc
  · rcases List.mem_append.mp hc with hx | hx
    · rcases List.mem_append.mp hx with hx | hx
      · exact Or.inl (List.takeWhile_subset _ hx)
      · exact Or.inr (List.mem_replicate.mp hx).2
    · exact Or.inl (List.dropWhile_subset _ hx)
  · exact Or.inl hc

/-- Shifting every line of a well-formed line list keeps it well-formed. -/
theorem linesWF_map_shift (n : Nat) (ps : List (List Char × Option Char))
    (h : LinesWF ps) :
    LinesWF (ps.map (fun p => (shiftLineList n p.1, p.2))) := by
  induction h with
  | last ln hln =>
    refine .last _ (fun c hc => ?_)
    rcases mem_shiftLineList n ln c hc with hx | rfl
    · exact hln c hx
    · decide
  | cons ln c rest hln hc hr ih =>
    refine .cons _ c _ (fun x hx => ?_) hc ih
    rcases mem_shiftLineList n ln x hx with hy | rfl
    · exact hln x hy
    · decide

/-- The whole-body heading shift is additive. -/
theorem shiftBody_comp (a b : Nat) (l : List Char) :
    shiftBody b (shiftBody a l) = shiftBody (a + b) l := by
  unfold shiftBody
  rw [splitLines_joinLines _ (linesWF_map_shift a _ (linesWF_splitLines l)),
      List.map_map]
  congr 1
  apply List.map_congr_left
  intro p _
  simp [Function.comp_apply, shiftLineList_comp a b]

/-- `concatFiles` always returns a result (never an error): pass 1 cannot
fail, and the link rewriter of pass 2 swallows lookup failures. -/
theorem concatFiles_isOk (cfg : Config) (dir : String) (files : List File) :
    (concatFiles cfg dir files).isOk = true := by
  unfold concatFiles
  obtain ⟨⟨st, fs⟩, hr⟩ := pass1_ok cfg dir files
  rw [hr]
  rfl

/-! ## The claims -/

/-- C1 (counterexample): with directory-titling enabled, process
`/d/sub/a.md` and then `/d/sub/b.md` from a fresh state.  For `b.md` the
component `sub` is already visited, yet its recorded heading level is 2,
not the 1 the claim implies: the running level counter is incremented for
every component, visited or not (`level += 1` precedes the
`visitedDirs.has` check). -/
theorem claim_C1_counterexample :
    (mapGet (addTitle cfgDirFile "/d"
        (addTitle cfgDirFile "/d" emptyState fileSubA0) fileSubB0).fileTitleIndex
      "/d/sub/b.md").map TitleEntry.level = some 2 ∧
    (mapGet (addTitle cfgDirFile "/d"
        (addTitle cfgDirFile "/d" emptyState fileSubA0) fileSubB0).fileTitleIndex
      "/d/sub/b.md").map TitleEntry.level ≠ some 1 := by
  constructor
  · rfl
  · decide

/-- C1 (amended): the running level counter is incremented for every
cumulative directory path component, already visited or not, so the heading
level assigned to a file counts all ancestor directory components; what the
visited check skips is only the emission of a second heading and a second
index/visited-set insertion for that component. -/
theorem claim_C1_amended (dir : String) (parts : List String) (acc : DirAcc) :
    ((parts.foldl (dirStep dir) acc).level = acc.level + parts.length) ∧
    (∀ part : String,
      acc.st.visitedDirs.contains
        (if acc.currentDir != "" then acc.currentDir ++ "/" ++ part else part) = true →
      (dirStep dir acc part).st = acc.st) := by
  constructor
  · induction parts generalizing acc with
    | nil => simp
    | cons p t ih =>
      rw [List.foldl_cons, ih, dirStep_level]
      simp only [List.length_cons]
      push_cast
      ring
  · intro part h
    exact dirStep_visited dir acc part h

/-- Witness for C1 (amended) at a concrete visited directory. -/
theorem claim_C1_amended_witness :
    ((["sub"].foldl (dirStep "/d") accVisited).level = accVisited.level + 1) ∧
    (dirStep "/d" accVisited "sub").st = accVisited.st := by
  have h := claim_C1_amended "/d" ["sub"] accVisited
  exact ⟨by simpa using h.1, h.2 "sub" (by decide)⟩

/-- C2 (counterexample): processing the same path `/d/a.md` twice (first
with metadata title `First`, then `Second`) does not fail: `Map.set`
silently overwrites, and the surviving entry is the second one. -/
theorem claim_C2_counterexample :
    mapGet (addTitle cfgMeta "/d"
        (addTitle cfgMeta "/d" emptyState fileMeta1) fileMeta2).fileTitleIndex
      "/d/a.md" = some { title := "Second", level := 1, md := "# Second\n\n" } ∧
    mapGet (addTitle cfgMeta "/d"
        (addTitle cfgMeta "/d" emptyState fileMeta1) fileMeta2).fileTitleIndex
      "/d/a.md" ≠ some { title := "First", level := 1, md := "# First\n\n" } := by
  constructor
  · rfl
  · decide

/-- C2 (amended): each key occurs at most once in the Title Index
(duplicate-freedom of the keys is preserved by every insertion), and
re-processing a path never fails: `addTitle` always (re)binds the file's
path, silently overwriting any existing entry rather than raising. -/
theorem claim_C2_amended (cfg : Config) (dir : String) (st : ConcatState)
    (file : File) (h : (st.fileTitleIndex.map Prod.fst).Nodup) :
    (∃ e, mapGet (addTitle cfg dir st file).fileTitleIndex file.path = some e) ∧
    ((addTitle cfg dir st file).fileTitleIndex.map Prod.fst).Nodup := by
  refine ⟨addTitle_binds_path cfg dir st file, ?_⟩
  simp only [addTitle]
  by_cases hc : ((titleFromMeta cfg file).isSome || cfg.fileNameAsTitle) = true
  · rw [if_pos hc]
    apply mapSet_keys_nodup
    by_cases hd : cfg.dirNameAsTitle = true
    · rw [if_pos hd]
      exact dirSteps_keys_nodup dir _ _ h
    · rw [if_neg hd]
      exact h
  · rw [if_neg hc]
    apply mapSet_keys_nodup
    by_cases hd : cfg.dirNameAsTitle = true
    · rw [if_pos hd]
      exact dirSteps_keys_nodup dir _ _ h
    · rw [if_neg hd]
      exact h

/-- Witness for C2 (amended) on a fresh state. -/
theorem claim_C2_amended_witness :
    (∃ e, mapGet (addTitle cfgMeta "/d" emptyState fileMeta1).fileTitleIndex
      "/d/a.md" = some e) ∧
    ((addTitle cfgMeta "/d" emptyState fileMeta1).fileTitleIndex.map Prod.fst).Nodup :=
  claim_C2_amended cfgMeta "/d" emptyState fileMeta1 (by simp [emptyState])

/-- C3 (counterexample): with an empty Title Index, rewriting
`[x](b.md)` in `/d/a.md` — a title request for a path never recorded —
completes and yields the degraded result `[x]()` instead of propagating the
error that `getTitle` raises for that same path. -/
theorem claim_C3_counterexample :
    modifyLinks emptyState fileLinkB = "[x]()" ∧
    getTitle emptyState "/d/b.md" =
      Except.error "Cannot get title for /d/b.md" := by
  constructor
  · rfl
  · rfl

/-- C3 (amended): `getTitle` raises for a path never recorded, but during
the link-rewrite pass that error is caught by `modifyLinks`' `try`/`catch`:
the rewriter emits an empty link target and completes, whether or not the
missing target is a processed file's path. -/
theorem claim_C3_amended (st : ConcatState) (p : String)
    (h : mapGet st.fileTitleIndex p = none) :
    getTitle st p = Except.error ("Cannot get title for " ++ p) ∧
    (∀ filePath link : String, strStartsWith link "http" = false →
      hashSplit (pathJoin (dirname filePath) link) = (p, none) →
      rewriteLink st filePath link = "") := by
  have hget : getTitle st p = Except.error ("Cannot get title for " ++ p) := by
    unfold getTitle
    rw [h]
  refine ⟨hget, ?_⟩
  intro filePath link hhttp hsplit
  simp only [rewriteLink]
  rw [if_neg (by simp [hhttp]), hsplit]
  simp [hget]

/-- Witness for C3 (amended) at a concrete missing target. -/
theorem claim_C3_amended_witness :
    getTitle emptyState "/d/b.md" =
      Except.error ("Cannot get title for " ++ "/d/b.md") ∧
    rewriteLink emptyState "/d/a.md" "b.md" = "" := by
  have h := claim_C3_amended emptyState "/d/b.md" rfl
  exact ⟨h.1, h.2 "/d/a.md" "b.md" rfl rfl⟩

/-- C4: a non-http, fragment-less link whose resolved target path is not a
key of the Title Index rewrites to the empty link target, and a run of the
concatenator always completes without raising. -/
theorem claim_C4 (st : ConcatState) (filePath link target : String)
    (hhttp : strStartsWith link "http" = false)
    (hsplit : hashSplit (pathJoin (dirname filePath) link) = (target, none))
    (hmiss : mapGet st.fileTitleIndex target = none) :
    rewriteLink st filePath link = "" ∧
    ∀ (cfg : Config) (dir : String) (files : List File),
      (concatFiles cfg dir files).isOk = true := by
  constructor
  · have hget : getTitle st target =
        Except.error ("Cannot get title for " ++ target) := by
      unfold getTitle
      rw [hmiss]
    simp only [rewriteLink]
    rw [if_neg (by simp [hhttp]), hsplit]
    simp [hget]
  · intro cfg dir files
    exact concatFiles_isOk cfg dir files

/-- Witness for C4: a link to the unprocessed `b.md` resolves to an empty
target and a concrete run completes. -/
theorem claim_C4_witness :
    rewriteLink emptyState "/d/a.md" "b.md" = "" ∧
    (concatFiles cfgDirFile "/d" [fileA]).isOk = true := by
  have h := claim_C4 emptyState "/d/a.md" "b.md" "/d/b.md" rfl rfl rfl
  exact ⟨h.1, h.2 cfgDirFile "/d" [fileA]⟩

/-- C5: the round-trip scenario.  Files `a.md` (`# A\n`) and `sub/b.md`
(`[link](../a.md)`) with `dirNameAsTitle` and `fileNameAsTitle` produce the
headings `# A` (for file `a`), `# Sub`, `## B`, and rewrite the link to
`#a`. -/
theorem claim_C5 :
    concatFiles cfgDirFile "/d" [fileA, fileSubB] =
      Except.ok ("# A\n\n" ++ "# A\n" ++ "\n" ++ "# Sub\n\n" ++ "## B\n\n" ++
        "[link](" ++ "#a" ++ ")") := rfl

/-- C6: the heading rewriter is the identity at shift zero (or negative),
and whenever `decreaseTitleLevels` is disabled. -/
theorem claim_C6 (dtl : Bool) (body : String) (n : Int) :
    decreaseTitleLevelsBy dtl body 0 = body ∧
    (n ≤ 0 → decreaseTitleLevelsBy dtl body n = body) ∧
    decreaseTitleLevelsBy false body n = body := by
  refine ⟨?_, ?_, ?_⟩
  · simp [decreaseTitleLevelsBy]
  · intro h
    simp [decreaseTitleLevelsBy, h]
  · simp [decreaseTitleLevelsBy]

/-- Witness for C6 at a concrete body and shifts. -/
theorem claim_C6_witness :
    decreaseTitleLevelsBy true "## x" 0 = "## x" ∧
    decreaseTitleLevelsBy true "## x" (-1) = "## x" ∧
    decreaseTitleLevelsBy false "## x" 5 = "## x" := by
  refine ⟨(claim_C6 true "## x" 0).1,
    (claim_C6 true "## x" (-1)).2.1 (by norm_num),
    (claim_C6 false "## x" 5).2.2⟩

/-- C7: with `decreaseTitleLevels` enabled the heading rewriter is
additive: shifting by `a` and then by `b` equals shifting by `a + b`, for
all bodies and all non-negative shifts. -/
theorem claim_C7 (body : String) (a b : Nat) :
    decreaseTitleLevelsBy true (decreaseTitleLevelsBy true body (a : Int)) (b : Int) =
      decreaseTitleLevelsBy true body ((a : Int) + (b : Int)) := by
  have key : ∀ (n : Nat) (s : String), 0 < n →
      decreaseTitleLevelsBy true s (n : Int) = ⟨shiftBody n s.data⟩ := by
    intro n s hn
    rw [decreaseTitleLevelsBy, if_neg (by simp; omega), Int.toNat_ofNat]
  rcases Nat.eq_zero_or_pos a with rfl | ha
  · simp [decreaseTitleLevelsBy]
  rcases Nat.eq_zero_or_pos b with rfl | hb
  · simp [decreaseTitleLevelsBy]
  have hsum : (a : Int) + (b : Int) = ((a + b : Nat) : Int) := by push_cast; ring
  rw [key a body ha, key b _ hb, hsum, key (a + b) body (by omega)]
  exact congrArg String.mk (shiftBody_comp a b body.data)

/-- C8 (counterexample): with `joinString` provided as the empty string,
the constructor's truthiness test falls back to a single newline, so the
bodies are joined with `"\n"` and not with `"\n" ++ "" ++ "\n"`. -/
theorem claim_C8_counterexample :
    concatFiles cfgJoinEmpty "/d" [fileBodyA, fileBodyB] =
      Except.ok ("# A\n\nA body" ++ "\n" ++ "# B\n\nB") ∧
    mkJoinString (some "") = "\n" ∧
    ("\n" : String) ≠ "\n" ++ "" ++ "\n" := by
  refine ⟨rfl, rfl, by decide⟩

/-- C8 (amended): the driver joins the processed bodies with the configured
separator: a single newline when `joinString` is not provided, and
`"\n" ++ s ++ "\n"` for every provided non-empty `s`; a provided empty
string is falsy in JS and falls back to a single newline. -/
theorem claim_C8_amended (cfg : Config) (dir : String) (files : List File)
    (st : ConcatState) (fs : List File)
    (hp : pass1 cfg dir files = Except.ok (st, fs)) :
    mkJoinString none = "\n" ∧
    (∀ s : String, s ≠ "" → mkJoinString (some s) = "\n" ++ s ++ "\n") ∧
    concatFiles cfg dir files =
      Except.ok (addGlobalTitleAndToc cfg
        (joinSep (mkJoinString cfg.joinString)
          ((fs.map (fun f => { f with body := modifyLinks st f })).map
            (fun f => f.body)))) := by
  refine ⟨rfl, ?_, ?_⟩
  · intro s hs
    simp only [mkJoinString]
    rw [if_neg (by simpa using hs)]
  · unfold concatFiles
    rw [hp]

/-- Witness for C8 (amended) on the empty file list and `joinString "---"`. -/
theorem claim_C8_amended_witness :
    mkJoinString none = "\n" ∧
    mkJoinString (some "---") = "\n" ++ "---" ++ "\n" ∧
    concatFiles cfgJoin "/d" [] =
      Except.ok (addGlobalTitleAndToc cfgJoin
        (joinSep (mkJoinString cfgJoin.joinString)
          ((([] : List File).map
              (fun f => { f with body := modifyLinks emptyState f })).map
            (fun f => f.body)))) := by
  have h := claim_C8_amended cfgJoin "/d" [] emptyState [] rfl
  exact ⟨h.1, h.2.1 "---" (by decide), h.2.2⟩

/-- C9: the slug function is idempotent, and for a file with no derivable
title the anchor name synthesized in the body (`<a name="...">`) is exactly
the stored title, a `gitHubLink` fixed point — so the `#`-target the link
rewriter computes from it (`"#" ++ gitHubLink title`) equals `"#"` followed
by that very anchor name. -/
theorem claim_C9 :
    (∀ s : String, gitHubLink (gitHubLink s) = gitHubLink s) ∧
    (∀ (cfg : Config) (dir : String) (st : ConcatState) (file : File),
      cfg.fileNameAsTitle = false → titleFromMeta cfg file = none →
      ∃ e : TitleEntry,
        mapGet (addTitle cfg dir st file).fileTitleIndex file.path = some e ∧
        e.title = gitHubLink (pathRelative dir file.path) ∧
        (∃ pre : String,
          e.md = pre ++ "\n<a name=\"" ++ e.title ++ "\"></a>\n\n") ∧
        "#" ++ gitHubLink e.title = "#" ++ e.title) := by
  constructor
  · intro s
    exact congrArg String.mk (gitHubLinkList_idem s.data)
  · intro cfg dir st file hf hm
    simp only [addTitle]
    rw [if_neg (by simp [hm, hf])]
    refine ⟨_, mapGet_mapSet_self .., rfl, ⟨_, rfl⟩, ?_⟩
    exact congrArg (fun x => "#" ++ x) (congrArg String.mk (gitHubLinkList_idem _))

/-- Witness for C9 at a concrete file without a derivable title. -/
theorem claim_C9_witness :
    gitHubLink (gitHubLink "My Title") = gitHubLink "My Title" ∧
    ∃ e : TitleEntry,
      mapGet (addTitle cfgDefault "/d" emptyState fileX).fileTitleIndex
        "/d/x.md" = some e ∧
      e.title = gitHubLink (pathRelative "/d" "/d/x.md") ∧
      (∃ pre : String,
        e.md = pre ++ "\n<a name=\"" ++ e.title ++ "\"></a>\n\n") ∧
      "#" ++ gitHubLink e.title = "#" ++ e.title := by
  have h := claim_C9
  exact ⟨h.1 "My Title", h.2 cfgDefault "/d" emptyState fileX rfl rfl⟩

/-- C10: the heading rewriter is purely line-based: a line starting with
`#` inside a fenced code block also receives the appended `#` characters. -/
theorem claim_C10 :
    decreaseTitleLevelsBy true "```sh\n# comment\n```\n" 1 =
      "```sh\n## comment\n```\n" := rfl

end ConcatMd